import Mathlib

/-!
A verification development for the namespacing layer of `zustand-divisions`
(`src/utils.tsx`): the key-prefixing codec (`getPrefixedObject` /
`getUnprefixedObject`), the per-namespace store facade built by
`getNamespacedApi`, the `namespaced` combinator, and the hook-accessor
factories.

JavaScript flat objects are embedded as ordered association lists from
`String` keys to values, with JS object-spread / property-write semantics:
writing an existing key updates its value in place (keeping its original
insertion position), writing a fresh key appends it.  JS string operations
(`startsWith`, `slice`, template concatenation) are embedded character-wise.
The underlying zustand store primitive is an external collaborator of the
repository; its `setState` contract (shallow merge when `replace` is falsy,
wholesale replacement when truthy) is modelled from the spec.
-/

namespace ZustandDiv

/-- A JavaScript flat object: an ordered association list of string keys to
values.  `Object.entries` order is the list order. -/
abbrev Obj (α : Type) : Type := List (String × α)

/-- `Object.keys`: the keys of an object, in insertion order. -/
def keys {α : Type} (o : Obj α) : List String := o.map Prod.fst

/-- Property read `o[k]`: the value at the first occurrence of key `k`. -/
def lookup {α : Type} (o : Obj α) (k : String) : Option α :=
  match o with
  | [] => none
  | (k', v) :: rest => if k' = k then some v else lookup rest k

/-- Well-formedness of the embedding: a JS object never holds two properties
with the same key. -/
def NodupKeys {α : Type} (o : Obj α) : Prop := (keys o).Nodup

instance {α : Type} (o : Obj α) : Decidable (NodupKeys o) :=
  List.nodupDecidable (keys o)

/-- First-defined alternative on options (`a` wins when present). -/
def altO {α : Type} (a b : Option α) : Option α :=
  match a with
  | some v => some v
  | none => b

/-- First object in the list that defines key `k` wins. -/
def firstLookup {α : Type} (os : List (Obj α)) (k : String) : Option α :=
  match os with
  | [] => none
  | o :: rest => altO (lookup o k) (firstLookup rest k)

/-- JS property write `o[k] = v` (also the effect of one key inside an object
spread): an existing key is overwritten in place, a fresh key is appended. -/
def setKey {α : Type} (o : Obj α) (k : String) (v : α) : Obj α :=
  if k ∈ keys o then o.map (fun p => if p.1 = k then (k, v) else p)
  else o ++ [(k, v)]

/-- JS object spread `{...a, ...b}`: write every property of `b`, in order,
over a copy of `a`. -/
def spread {α : Type} (a b : Obj α) : Obj α :=
  b.foldl (fun acc p => setKey acc p.1 p.2) a

/-- JS `delete o[k]` for each key in `ks`, in order. -/
def deleteKeys {α : Type} (o : Obj α) (ks : List String) : Obj α :=
  ks.foldl (fun acc k => acc.filter (fun p => p.1 != k)) o

/-- Character-wise list-prefix test (the meaning of JS `startsWith`). -/
def charsPre : List Char → List Char → Bool
  | [], _ => true
  | _ :: _, [] => false
  | c :: cs, d :: ds => c == d && charsPre cs ds

/-- JS `s.startsWith(pre)`. -/
def jsStartsWith (s pre : String) : Bool := charsPre pre.data s.data

/-- JS `s.slice(n)`: drop the first `n` characters. -/
def jsSlice (s : String) (n : Nat) : String := String.mk (s.data.drop n)

/-- `getPrefixedObject(typePrefix, obj)` from `src/utils.tsx`: rebuild the
object entry by entry, rewriting every key `k` to `` `${typePrefix}_${k}` ``. -/
def getPrefixedObject {α : Type} (typePre : String) (obj : Obj α) : Obj α :=
  obj.foldl (fun acc p => setKey acc (typePre ++ "_" ++ p.1) p.2) []

/-- `getUnprefixedObject(typePrefix, obj)` from `src/utils.tsx`: keep exactly
the entries whose key starts with `` `${typePrefix}_` ``, stripping
`typePrefix.length + 1` characters from the key; drop all other entries. -/
def getUnprefixedObject {α : Type} (typePre : String) (obj : Obj α) : Obj α :=
  obj.foldl
    (fun acc p =>
      if jsStartsWith p.1 (typePre ++ "_") then
        setKey acc (jsSlice p.1 (typePre.length + 1)) p.2
      else acc)
    []

/-- `shallow(a, b)` from `zustand/shallow` (an external collaborator,
modelled from its documented behaviour on flat objects): reference/structural
equality fast path, else same number of keys and, for every key of `a`, `b`
owns the key with an `Object.is`-equal value. -/
def shallow {α : Type} [DecidableEq α] (a b : Obj α) : Bool :=
  a == b ||
    ((keys a).length == (keys b).length &&
      (keys a).all (fun k => (lookup b k).isSome && lookup a k == lookup b k))

/-- The argument of `setState`: either a direct partial object or a function
of the previous state (`typeof state === 'function'` dispatch). -/
inductive SetStateArg (α : Type) : Type
  | value : Obj α → SetStateArg α
  | func : (Obj α → Obj α) → SetStateArg α

/-- Resolve a `setState` argument against the previous state. -/
def resolveArg {α : Type} : SetStateArg α → Obj α → Obj α
  | .value o, _ => o
  | .func f, s => f s

/-- The data behaviour of a zustand `StoreApi`, with state effects modelled as
pure results: `setState` returns the store state that results from the call.
(`subscribe` is stateful listener registration; its notification filtering is
modelled separately by `namespacedListener`.) -/
structure StoreApiModel (α : Type) : Type where
  getInitialState : Obj α
  getState : Obj α
  setState : SetStateArg α → Bool → Obj α

/-- Modelled from the spec: the parent store primitive's `setState(update,
replace?)` (zustand, an external collaborator not under `src/`).  The update
is resolved against the current state; with `replace` truthy the resolved
object becomes the whole state, with `replace` falsy it is shallow-merged
into a copy of the current state (`Object.assign({}, state, next)`). -/
def storeSetState {α : Type} (current : Obj α) (update : SetStateArg α)
    (replace : Bool) : Obj α :=
  let next := resolveArg update current
  if replace then next else spread (spread [] current) next

/-- Modelled from the spec: a vanilla parent store handle whose current state
is `current` and whose initial state is `initial`. -/
def vanillaStoreApi {α : Type} (initial current : Obj α) : StoreApiModel α where
  getInitialState := initial
  getState := current
  setState := fun update replace => storeSetState current update replace

/-- The state-updater function the facade's `setState` passes to the parent's
`setState` (the arrow function at `src/utils.tsx` lines 31–53): resolve the
update against the namespace's unprefixed view of the current parent state;
with `replace` truthy, delete this namespace's current prefixed keys from a
copy of the parent state and insert the new prefixed keys; with `replace`
falsy, return just the prefixed patch. -/
def facadeUpdateFn {α : Type} (name : String) (stateArg : SetStateArg α)
    (replace : Bool) (currentState : Obj α) : Obj α :=
  let unprefixedState := getUnprefixedObject name currentState
  let updatedState := resolveArg stateArg unprefixedState
  if replace then
    let prefixedState := getPrefixedObject name unprefixedState
    let newState := deleteKeys (spread [] currentState) (keys prefixedState)
    spread newState (getPrefixedObject name updatedState)
  else
    getPrefixedObject name updatedState

/-- The creator shape `(set, get, api) -> NamespaceState`. -/
abbrev Creator (α : Type) : Type :=
  (SetStateArg α → Bool → Obj α) → Obj α → StoreApiModel α → Obj α

/-- A namespace descriptor `{ name, creator }` (the `Namespace` type of
`src/types.tsx`, consumed by `src/utils.tsx`). -/
structure Namespace (α : Type) : Type where
  name : String
  creator : Creator α

/-- `getNamespacedApi(namespace, api)` from `src/utils.tsx`: the namespaced
facade over a parent store api.  `getInitialState`/`getState` unprefix the
parent's state; `setState` forwards `facadeUpdateFn` to the parent's
`setState` — note the source passes NO second argument to `api.setState`, so
the parent call is always non-replacing (`false` here). -/
def getNamespacedApi {α : Type} (ns : Namespace α) (api : StoreApiModel α) :
    StoreApiModel α where
  getInitialState := getUnprefixedObject ns.name api.getInitialState
  getState := getUnprefixedObject ns.name api.getState
  setState := fun stateArg replace =>
    api.setState (.func (facadeUpdateFn ns.name stateArg replace)) false

/-- The parent-state effect of calling the facade's `setState` on a facade
built over a vanilla parent store with current state `current`. -/
def namespacedSetState {α : Type} (ns : Namespace α) (stateArg : SetStateArg α)
    (replace : Bool) (current : Obj α) : Obj α :=
  (getNamespacedApi ns (vanillaStoreApi current current)).setState stateArg replace

/-- The listener wrapper installed by the facade's `subscribe`
(`src/utils.tsx` lines 55–71), as a function of one parent notification
`(newState, oldState)`: `none` means the wrapped listener is not invoked
(the two unprefixed views are `shallow`-equal), `some r` means it is invoked
exactly once, with `r` the result of the listener on the new and old
unprefixed views. -/
def namespacedListener {α β : Type} [DecidableEq α] (ns : Namespace α)
    (listener : Obj α → Obj α → β) (newState oldState : Obj α) : Option β :=
  let newUnprefixedState := getUnprefixedObject ns.name newState
  let oldUnprefixedState := getUnprefixedObject ns.name oldState
  if shallow newUnprefixedState oldUnprefixedState then none
  else some (listener (getUnprefixedObject ns.name newState)
    (getUnprefixedObject ns.name oldState))

/-- `transformStateCreatorArgs(namespace, set, get, api)` from
`src/utils.tsx`: only the original `api` is used; the creator receives the
namespaced facade's `setState`, `getState` and the facade itself. -/
def transformStateCreatorArgs {α : Type} (ns : Namespace α)
    (api : StoreApiModel α) : StoreApiModel α :=
  getNamespacedApi ns api

/-- `transformCallback(set, get, api)(namespace)` from `src/utils.tsx`:
invoke the namespace's creator with the transformed (facade) arguments and
prefix the resulting namespace state with the namespace's name. -/
def transformCallback {α : Type} (set : SetStateArg α → Bool → Obj α)
    (get : Obj α) (api : StoreApiModel α) (ns : Namespace α) : Obj α :=
  let newApi := transformStateCreatorArgs ns api
  getPrefixedObject ns.name (ns.creator newApi.setState newApi.getState newApi)

/-- `spreadNamespaces(namespaces, callback)` from `src/utils.tsx`: left fold
of object spreads of each namespace's callback result, starting from `{}`. -/
def spreadNamespaces {α : Type} (nss : List (Namespace α))
    (callback : Namespace α → Obj α) : Obj α :=
  nss.foldl (fun acc ns => spread acc (callback ns)) []

/-- `spreadTransformedNamespaces(namespaces, set, get, api)` from
`src/utils.tsx`. -/
def spreadTransformedNamespaces {α : Type} (nss : List (Namespace α))
    (set : SetStateArg α → Bool → Obj α) (get : Obj α)
    (api : StoreApiModel α) : Obj α :=
  spreadNamespaces nss (transformCallback set get api)

/-- `namespaced(...namespaces)(creator?)` from `src/utils.tsx`, applied to
the `(set, get, api)` the store primitive supplies: spread the transformed
namespace states together, then spread the optional root creator's result on
top (`creator?.()` of an absent creator contributes nothing).  The source's
`withFactories(api)` only attaches the hook factory method to `api` (see
`withFactoriesGetNamespaceHook`); it does not change the api's store
behaviour, so the state shape is unchanged here. -/
def namespaced {α : Type} (nss : List (Namespace α)) (creator : Option (Creator α))
    (set : SetStateArg α → Bool → Obj α) (get : Obj α)
    (api : StoreApiModel α) : Obj α :=
  spread (spreadTransformedNamespaces nss set get api)
    (match creator with
     | some c => c set get api
     | none => [])

/-- `toNamespace(namespace, state)` from `src/utils.tsx`. -/
def toNamespace {α : Type} (ns : Namespace α) (state : Obj α) : Obj α :=
  getUnprefixedObject ns.name state

/-- `fromNamespace(namespace, state)` from `src/utils.tsx`: a two-argument
pure transform taking the namespace descriptor first and the state second. -/
def fromNamespace {α : Type} (ns : Namespace α) (state : Obj α) : Obj α :=
  getPrefixedObject ns.name state

/-- `getNamespaceHook(api, namespace)` from `src/utils.tsx`: the returned
hook is a react binding (external collaborator) `Object.assign`ed with the
namespaced facade api; the accessor's store-handle behaviour is that facade
api. -/
def getNamespaceHook {α : Type} (api : StoreApiModel α) (ns : Namespace α) :
    StoreApiModel α :=
  getNamespacedApi ns api

/-- The result of the `getNamespaceHook` factory attached by `withFactories`:
either a single accessor or a JS array of accessors. -/
inductive HookResult (α : Type) : Type
  | single : StoreApiModel α → HookResult α
  | many : Obj (StoreApiModel α) → HookResult α

/-- A JS array viewed as a JS object: its own property keys are the decimal
index strings `"0"`, `"1"`, … in order. -/
def arrayObj {β : Type} (l : List β) : Obj β :=
  ((List.range l.length).zip l).map (fun p => (toString p.1, p.2))

/-- The `getNamespaceHook(...namespaces)` factory method that
`withFactories` (`src/utils.tsx` lines 77–89) attaches to an api: with
exactly one descriptor it returns that descriptor's accessor, otherwise it
returns `namespaces.map((ns) => getNamespaceHook(api, ns))` — a JS array. -/
def withFactoriesGetNamespaceHook {α : Type} (api : StoreApiModel α)
    (nss : List (Namespace α)) : HookResult α :=
  match nss with
  | [ns] => .single (getNamespaceHook api ns)
  | _ => .many (arrayObj (nss.map (getNamespaceHook api)))

/-- Primitive JS values used in the concrete examples. -/
inductive JsVal : Type
  | str : String → JsVal
  | num : Int → JsVal
deriving DecidableEq

/-- The `admin` namespace descriptor of the repository's tests. -/
def adminNs : Namespace JsVal :=
  ⟨"admin", fun _ _ _ => [("level", .num 1)]⟩

/-- The `user` namespace descriptor of the repository's tests. -/
def userNs : Namespace JsVal :=
  ⟨"user", fun _ _ _ => [("name", .str "Alice"), ("age", .num 25)]⟩

/-- The flat state `{name: "Alice", age: 25}` of the nested-prefixing
example. -/
def aliceState : Obj JsVal := [("name", .str "Alice"), ("age", .num 25)]

/-- A trivial parent store handle for concrete instantiations. -/
def stubApi : StoreApiModel JsVal := ⟨[], [], fun _ _ => []⟩

/-- A trivial `set` argument for concrete creator invocations. -/
def stubSet : SetStateArg JsVal → Bool → Obj JsVal := fun _ _ => []

/-- A root creator that collides with a `user` namespace key, for the
merge-order example. -/
def rootFix : Creator JsVal := fun _ _ _ => [("user_name", .str "Root")]

/-- The namespace-`a` descriptor of the replace-semantics example. -/
def aNs : Namespace JsVal := ⟨"a", fun _ _ _ => []⟩

/-- The array of accessors built for `[userNs, adminNs]`. -/
def hookArrayFix : Obj (StoreApiModel JsVal) :=
  arrayObj ([userNs, adminNs].map (getNamespaceHook stubApi))

/-! ### Basic facts about the object embedding -/

theorem keys_cons {α : Type} (p : String × α) (o : Obj α) :
    keys (p :: o) = p.1 :: keys o := rfl

theorem keys_append {α : Type} (a b : Obj α) : keys (a ++ b) = keys a ++ keys b := by
  simp [keys]

theorem lookup_cons {α : Type} (p : String × α) (o : Obj α) (k : String) :
    lookup (p :: o) k = if p.1 = k then some p.2 else lookup o k := rfl

theorem altO_none {α : Type} (a : Option α) : altO a none = a := by
  cases a <;> rfl

theorem lookup_isSome_iff {α : Type} (o : Obj α) (k : String) :
    (lookup o k).isSome = true ↔ k ∈ keys o := by
  induction o with
  | nil => simp [lookup, keys]
  | cons p rest ih =>
      by_cases h : p.1 = k
      · simp [lookup_cons, keys_cons, h]
      · rw [lookup_cons, if_neg h, keys_cons, List.mem_cons, ih]
        have h' : ¬ k = p.1 := fun hh => h hh.symm
        simp [h']

theorem lookup_eq_none {α : Type} {o : Obj α} {k : String} (h : k ∉ keys o) :
    lookup o k = none := by
  cases hl : lookup o k with
  | none => rfl
  | some v => exact absurd ((lookup_isSome_iff o k).mp (by simp [hl])) h

theorem lookup_append {α : Type} (a b : Obj α) (k : String) :
    lookup (a ++ b) k = altO (lookup a k) (lookup b k) := by
  induction a with
  | nil => simp [lookup, altO]
  | cons p rest ih =>
      by_cases h : p.1 = k <;>
        simp [List.cons_append, lookup_cons, h, ih, altO]

theorem keys_map_replace {α : Type} (o : Obj α) (k : String) (v : α) :
    keys (o.map (fun p => if p.1 = k then (k, v) else p)) = keys o := by
  induction o with
  | nil => rfl
  | cons p rest ih =>
      by_cases h : p.1 = k <;> simp [keys_cons, h, ih]

theorem map_replace_of_not_mem {α : Type} {o : Obj α} {k : String} (v : α)
    (h : k ∉ keys o) :
    o.map (fun p => if p.1 = k then (k, v) else p) = o := by
  induction o with
  | nil => rfl
  | cons p rest ih =>
      have h1 : ¬ p.1 = k := fun hh => h (by simp [keys_cons, hh])
      have h2 : k ∉ keys rest := fun hh => h (by simp [keys_cons, hh])
      simp [h1, ih h2]

theorem lookup_map_replace {α : Type} {o : Obj α} {k : String} (v : α)
    (hmem : k ∈ keys o) (k' : String) :
    lookup (o.map (fun p => if p.1 = k then (k, v) else p)) k' =
      if k' = k then some v else lookup o k' := by
  induction o with
  | nil => simp [keys] at hmem
  | cons p rest ih =>
      rw [List.map_cons]
      by_cases h1 : p.1 = k
      · rw [if_pos h1]
        by_cases h2 : k' = k
        · subst h2
          simp [lookup_cons]
        · have h2' : ¬ k = k' := fun hh => h2 hh.symm
          have hp1 : ¬ p.1 = k' := h1 ▸ h2'
          rw [lookup_cons, if_neg h2', if_neg h2, lookup_cons, if_neg hp1]
          by_cases h3 : k ∈ keys rest
          · rw [ih h3, if_neg h2]
          · rw [map_replace_of_not_mem v h3]
      · have h3 : k ∈ keys rest := by
          rcases (by simpa [keys_cons] using hmem : k = p.1 ∨ k ∈ keys rest) with h | h
          · exact absurd h.symm h1
          · exact h
        rw [if_neg h1, lookup_cons, lookup_cons]
        by_cases h2 : p.1 = k'
        · have h4 : ¬ k' = k := fun hh => h1 (h2.trans hh)
          rw [if_pos h2, if_neg h4, if_pos h2]
        · rw [if_neg h2, if_neg h2, ih h3]

theorem keys_setKey {α : Type} (o : Obj α) (k : String) (v : α) :
    keys (setKey o k v) = if k ∈ keys o then keys o else keys o ++ [k] := by
  unfold setKey
  by_cases h : k ∈ keys o
  · rw [if_pos h, if_pos h, keys_map_replace]
  · rw [if_neg h, if_neg h, keys_append]
    rfl

theorem lookup_setKey {α : Type} (o : Obj α) (k : String) (v : α) (k' : String) :
    lookup (setKey o k v) k' = if k' = k then some v else lookup o k' := by
  by_cases h : k ∈ keys o
  · simpa [setKey, h] using lookup_map_replace v h k'
  · rw [setKey, if_neg h, lookup_append]
    by_cases h2 : k' = k
    · subst h2
      simp [lookup_eq_none h, altO, lookup_cons]
    · have h2' : ¬ k = k' := fun hh => h2 hh.symm
      rw [lookup_cons, if_neg h2, if_neg h2']
      simp [lookup, altO_none]

theorem spread_cons {α : Type} (a : Obj α) (p : String × α) (b : Obj α) :
    spread a (p :: b) = spread (setKey a p.1 p.2) b := rfl

theorem lookup_spread_not_mem {α : Type} {b : Obj α} {k : String} (a : Obj α)
    (h : k ∉ keys b) : lookup (spread a b) k = lookup a k := by
  induction b generalizing a with
  | nil => rfl
  | cons p rest ih =>
      have h1 : ¬ k = p.1 := fun hh => h (by simp [keys_cons, hh])
      have h2 : k ∉ keys rest := fun hh => h (by simp [keys_cons, hh])
      rw [spread_cons, ih _ h2, lookup_setKey, if_neg h1]

theorem altO_assoc {α : Type} (x y z : Option α) :
    altO (altO x y) z = altO x (altO y z) := by
  cases x <;> rfl

theorem lookup_spread {α : Type} (a b : Obj α) (k : String) :
    lookup (spread a b) k = altO (lookup b.reverse k) (lookup a k) := by
  induction b generalizing a with
  | nil => simp [spread, lookup, altO]
  | cons p rest ih =>
      rw [spread_cons, ih, List.reverse_cons, lookup_append, altO_assoc, lookup_setKey]
      congr 1
      by_cases hp : p.1 = k
      · have hp' : k = p.1 := hp.symm
        rw [if_pos hp', lookup_cons, if_pos hp]
        rfl
      · have hp' : ¬ k = p.1 := fun hh => hp hh.symm
        rw [if_neg hp', lookup_cons, if_neg hp]
        rfl

theorem nodupKeys_nil {α : Type} : NodupKeys ([] : Obj α) := by
  simp [NodupKeys, keys]

theorem nodupKeys_setKey {α : Type} {o : Obj α} (k : String) (v : α)
    (h : NodupKeys o) : NodupKeys (setKey o k v) := by
  unfold NodupKeys at *
  rw [keys_setKey]
  by_cases hm : k ∈ keys o
  · simpa [hm] using h
  · simp only [hm, if_false]
    rw [List.nodup_append]
    exact ⟨h, List.nodup_singleton k, by
      intro x hx hx'
      simp only [List.mem_singleton] at hx'
      subst hx'
      exact hm hx⟩

theorem nodupKeys_spread {α : Type} {a : Obj α} (b : Obj α) (h : NodupKeys a) :
    NodupKeys (spread a b) := by
  induction b generalizing a with
  | nil => exact h
  | cons p rest ih => exact ih (nodupKeys_setKey _ _ h)

theorem spread_eq_append {α : Type} {a b : Obj α} (h : NodupKeys (a ++ b)) :
    spread a b = a ++ b := by
  induction b generalizing a with
  | nil => simp [spread]
  | cons p rest ih =>
      have hp : p.1 ∉ keys a := by
        unfold NodupKeys at h
        rw [keys_append, keys_cons, List.nodup_append] at h
        intro hmem
        exact h.2.2 hmem (by simp)
      have hsk : setKey a p.1 p.2 = a ++ [p] := by
        simp [setKey, hp]
      rw [spread_cons, hsk, ih (by simpa [NodupKeys, List.append_assoc] using h)]
      simp

theorem spread_nil_left {α : Type} {b : Obj α} (h : NodupKeys b) : spread [] b = b := by
  simpa using spread_eq_append (a := []) (b := b) (by simpa using h)

theorem mem_keys_setKey {α : Type} {o : Obj α} {k k' : String} {v : α}
    (h : k' ∈ keys (setKey o k v)) : k' = k ∨ k' ∈ keys o := by
  rw [keys_setKey] at h
  by_cases hm : k ∈ keys o
  · simp only [hm, if_true] at h
    exact Or.inr h
  · simp only [hm, if_false, List.mem_append, List.mem_singleton] at h
    exact h.symm.imp_left id

theorem mem_keys_spread {α : Type} {a b : Obj α} {k : String}
    (h : k ∈ keys (spread a b)) : k ∈ keys a ∨ k ∈ keys b := by
  induction b generalizing a with
  | nil => exact Or.inl h
  | cons p rest ih =>
      rw [spread_cons] at h
      rcases ih h with h2 | h2
      · rcases mem_keys_setKey h2 with h3 | h3
        · exact Or.inr (by simp [keys_cons, h3])
        · exact Or.inl h3
      · exact Or.inr (by simp [keys_cons, h2])

theorem lookup_reverse {α : Type} {b : Obj α} (h : NodupKeys b) (k : String) :
    lookup b.reverse k = lookup b k := by
  induction b with
  | nil => rfl
  | cons p rest ih =>
      have h1 : p.1 ∉ keys rest ∧ NodupKeys rest := by
        simpa [NodupKeys, keys_cons] using h
      rw [List.reverse_cons, lookup_append, ih h1.2]
      by_cases hk : p.1 = k
      · subst hk
        rw [lookup_eq_none h1.1]
        simp [altO, lookup_cons]
      · simp [lookup_cons, hk, lookup, altO_none]

/-! ### Character-level facts about the key codec -/

theorem charsPre_refl_append (p t : List Char) : charsPre p (p ++ t) = true := by
  induction p with
  | nil => rfl
  | cons c cs ih => simp [charsPre, ih]

theorem charsPre_iff {p s : List Char} : charsPre p s = true ↔ ∃ t, p ++ t = s := by
  induction p generalizing s with
  | nil => simp [charsPre]
  | cons c cs ih =>
      cases s with
      | nil => simp [charsPre]
      | cons d ds =>
          simp only [charsPre, Bool.and_eq_true, beq_iff_eq, ih, List.cons_append,
            List.cons.injEq]
          constructor
          · rintro ⟨rfl, t, rfl⟩
            exact ⟨t, rfl, rfl⟩
          · rintro ⟨t, rfl, rfl⟩
            exact ⟨rfl, t, rfl⟩

theorem jsStartsWith_key (n k : String) :
    jsStartsWith (n ++ "_" ++ k) (n ++ "_") = true := by
  unfold jsStartsWith
  rw [String.data_append]
  exact charsPre_refl_append _ _

theorem length_underscoreAppend (n : String) : (n ++ "_").data.length = n.length + 1 := by
  rw [String.data_append, List.length_append]
  rfl

theorem jsSlice_key (n k : String) : jsSlice (n ++ "_" ++ k) (n.length + 1) = k := by
  unfold jsSlice
  rw [String.data_append, ← length_underscoreAppend n, List.drop_left]

theorem string_ext_data {s₁ s₂ : String} (h : s₁.data = s₂.data) : s₁ = s₂ := by
  cases s₁
  cases s₂
  exact congrArg String.mk h

theorem key_append_inj {n a b : String} (h : n ++ "_" ++ a = n ++ "_" ++ b) : a = b := by
  have hd : (n ++ "_").data ++ a.data = (n ++ "_").data ++ b.data := by
    have h2 := congrArg String.data h
    simpa [String.data_append] using h2
  exact string_ext_data (List.append_cancel_left hd)

theorem jsStartsWith_decomp {s n : String} (h : jsStartsWith s (n ++ "_") = true) :
    n ++ "_" ++ jsSlice s (n.length + 1) = s := by
  obtain ⟨t, ht⟩ := charsPre_iff.mp h
  have hslice : jsSlice s (n.length + 1) = String.mk t := by
    unfold jsSlice
    rw [← ht, ← length_underscoreAppend n, List.drop_left]
  rw [hslice]
  apply string_ext_data
  rw [String.data_append]
  exact ht

/-! ### Fold shapes of the codec -/

theorem map_self_of_mem {β : Type} {l : List β} {f : β → β}
    (h : ∀ p ∈ l, f p = p) : l.map f = l := by
  induction l with
  | nil => rfl
  | cons a l ih =>
      rw [List.map_cons, h a (by simp), ih (fun p hp => h p (by simp [hp]))]

theorem foldl_if_filter {α β : Type} (l : List β) (c : β → Bool)
    (g : Obj α → β → Obj α) (init : Obj α) :
    l.foldl (fun acc b => if c b then g acc b else acc) init =
      (l.filter c).foldl g init := by
  induction l generalizing init with
  | nil => rfl
  | cons a l ih =>
      by_cases h : c a <;> simp [List.filter, h, ih]

theorem getPrefixedObject_eq_spread {α : Type} (n : String) (o : Obj α) :
    getPrefixedObject n o =
      spread [] (o.map (fun p => (n ++ "_" ++ p.1, p.2))) := by
  unfold getPrefixedObject spread
  rw [List.foldl_map]

theorem getUnprefixedObject_eq_spread {α : Type} (n : String) (o : Obj α) :
    getUnprefixedObject n o =
      spread []
        ((o.filter (fun p => jsStartsWith p.1 (n ++ "_"))).map
          (fun p => (jsSlice p.1 (n.length + 1), p.2))) := by
  unfold getUnprefixedObject spread
  rw [List.foldl_map, ← foldl_if_filter]

theorem nodupKeys_getPrefixedObject {α : Type} (n : String) (o : Obj α) :
    NodupKeys (getPrefixedObject n o) := by
  rw [getPrefixedObject_eq_spread]
  exact nodupKeys_spread _ nodupKeys_nil

theorem nodupKeys_getUnprefixedObject {α : Type} (n : String) (o : Obj α) :
    NodupKeys (getUnprefixedObject n o) := by
  rw [getUnprefixedObject_eq_spread]
  exact nodupKeys_spread _ nodupKeys_nil

theorem keys_map_entry {α : Type} (o : Obj α) (f : String → String) :
    keys (o.map (fun p => (f p.1, p.2))) = (keys o).map f := by
  induction o with
  | nil => rfl
  | cons p rest ih => simp [keys_cons, ih]

theorem keys_filter_entry {α : Type} (o : Obj α) (q : String → Bool) :
    keys (o.filter (fun p => q p.1)) = (keys o).filter q := by
  induction o with
  | nil => rfl
  | cons p rest ih =>
      by_cases h : q p.1 <;> simp [List.filter_cons, keys_cons, h, ih]

theorem keys_map_slice {α : Type} (o : Obj α) (m : Nat) :
    keys (o.map (fun p => (jsSlice p.1 m, p.2))) =
      (keys o).map (fun k => jsSlice k m) := by
  induction o with
  | nil => rfl
  | cons p rest ih => simp [keys_cons, ih]

theorem keys_filter_sw {α : Type} (o : Obj α) (pre : String) :
    keys (o.filter (fun p => jsStartsWith p.1 pre)) =
      (keys o).filter (fun k => jsStartsWith k pre) := by
  induction o with
  | nil => rfl
  | cons p rest ih =>
      by_cases h : jsStartsWith p.1 pre <;>
        simp [List.filter_cons, keys_cons, h, ih]

theorem getPrefixedObject_eq_map {α : Type} (n : String) {o : Obj α}
    (h : NodupKeys o) :
    getPrefixedObject n o = o.map (fun p => (n ++ "_" ++ p.1, p.2)) := by
  rw [getPrefixedObject_eq_spread]
  apply spread_nil_left
  unfold NodupKeys
  rw [keys_map_entry]
  exact h.map (fun a b hab => key_append_inj hab)

theorem unprefix_filterMap {α : Type} (n : String) {o : Obj α} (h : NodupKeys o) :
    getUnprefixedObject n o =
      (o.filter (fun p => jsStartsWith p.1 (n ++ "_"))).map
        (fun p => (jsSlice p.1 (n.length + 1), p.2)) := by
  rw [getUnprefixedObject_eq_spread]
  apply spread_nil_left
  unfold NodupKeys
  rw [keys_map_slice, keys_filter_sw]
  apply List.Nodup.map_on
  · intro x hx y hy hxy
    have hx2 := (List.mem_filter.mp hx).2
    have hy2 := (List.mem_filter.mp hy).2
    rw [← jsStartsWith_decomp hx2, ← jsStartsWith_decomp hy2, hxy]
  · exact h.filter _

/-! ### Claims C4, C5, C9: the codec -/

/-- **C4**: for every namespace name `n` and every well-formed flat object
`o`, the codec round-trips: `unprefix(n, prefix(n, o))` equals `o` (the
separator-collision caveat of the claim is not even needed: re-prefixed keys
always carry the full `n + "_"` token). -/
theorem c4_prefix_unprefix_roundTrip {α : Type} (n : String) (o : Obj α)
    (h : NodupKeys o) :
    getUnprefixedObject n (getPrefixedObject n o) = o := by
  have hmap : NodupKeys (o.map (fun p => (n ++ "_" ++ p.1, p.2))) := by
    unfold NodupKeys
    rw [keys_map_entry]
    exact h.map (fun a b hab => key_append_inj hab)
  rw [getPrefixedObject_eq_map n h, unprefix_filterMap n hmap]
  have hfil : (o.map (fun p => (n ++ "_" ++ p.1, p.2))).filter
      (fun p => jsStartsWith p.1 (n ++ "_")) =
      o.map (fun p => (n ++ "_" ++ p.1, p.2)) := by
    apply List.filter_eq_self.mpr
    intro p hp
    obtain ⟨q, _, rfl⟩ := List.mem_map.mp hp
    exact jsStartsWith_key n q.1
  rw [hfil, List.map_map]
  apply map_self_of_mem
  intro p _
  show (jsSlice (n ++ "_" ++ p.1) (n.length + 1), p.2) = p
  rw [jsSlice_key]

/-- Witness for C4 at the concrete object `{name: "Alice", age: 25}` and
namespace name `"user"`. -/
theorem c4_prefix_unprefix_roundTrip_witness :
    NodupKeys aliceState ∧
    getUnprefixedObject "user" (getPrefixedObject "user" aliceState) = aliceState :=
  ⟨by decide, c4_prefix_unprefix_roundTrip "user" aliceState (by decide)⟩

/-- **C5**: for every well-formed object, `unprefix` keeps exactly the
entries whose key literally starts with the full name-plus-separator token,
strips that token from the kept keys, and drops every other entry. -/
theorem c5_unprefix_boundary {α : Type} (n : String) (o : Obj α)
    (h : NodupKeys o) :
    getUnprefixedObject n o =
      (o.filter (fun p => jsStartsWith p.1 (n ++ "_"))).map
        (fun p => (jsSlice p.1 (n.length + 1), p.2)) :=
  unprefix_filterMap n h

/-- Witness for C5 at the claim's concrete input:
`unprefix("user", {user_name: "A", username: "B"})` yields exactly
`{name: "A"}`, excluding the non-separator-bounded key `username`. -/
theorem c5_unprefix_boundary_witness :
    NodupKeys ([("user_name", JsVal.str "A"), ("username", JsVal.str "B")] : Obj JsVal) ∧
    getUnprefixedObject "user" [("user_name", JsVal.str "A"), ("username", JsVal.str "B")] =
      (([("user_name", JsVal.str "A"), ("username", JsVal.str "B")] : Obj JsVal).filter
        (fun p => jsStartsWith p.1 ("user" ++ "_"))).map
        (fun p => (jsSlice p.1 ("user".length + 1), p.2)) ∧
    getUnprefixedObject "user" [("user_name", JsVal.str "A"), ("username", JsVal.str "B")] =
      [("name", JsVal.str "A")] :=
  ⟨by decide, c5_unprefix_boundary "user" _ (by decide), by decide⟩

/-- **C9**: `prefix(n, unprefix(n, s))` is the restriction of `s` to its
`n`-prefixed keys: exactly the entries of `s` whose key starts with the
name-plus-separator token, with identical values (and in `s`'s order). -/
theorem c9_prefix_unprefix_restriction {α : Type} (n : String) (s : Obj α)
    (h : NodupKeys s) :
    getPrefixedObject n (getUnprefixedObject n s) =
      s.filter (fun p => jsStartsWith p.1 (n ++ "_")) := by
  rw [unprefix_filterMap n h, getPrefixedObject_eq_spread, List.map_map]
  have hm : (s.filter (fun p => jsStartsWith p.1 (n ++ "_"))).map
      ((fun p : String × α => (n ++ "_" ++ p.1, p.2)) ∘
        (fun p : String × α => (jsSlice p.1 (n.length + 1), p.2))) =
      s.filter (fun p => jsStartsWith p.1 (n ++ "_")) := by
    apply map_self_of_mem
    intro p hp
    have hc := (List.mem_filter.mp hp).2
    show (n ++ "_" ++ jsSlice p.1 (n.length + 1), p.2) = p
    rw [jsStartsWith_decomp hc]
  rw [hm]
  apply spread_nil_left
  unfold NodupKeys
  rw [keys_filter_sw]
  exact h.filter _

/-- Witness for C9 at a concrete mixed state: the restriction keeps
`user_name` with its identical value and drops `username` and
`admin_level`. -/
theorem c9_prefix_unprefix_restriction_witness :
    NodupKeys ([("user_name", JsVal.str "A"), ("username", JsVal.str "B"),
      ("admin_level", JsVal.num 1)] : Obj JsVal) ∧
    getPrefixedObject "user" (getUnprefixedObject "user"
      [("user_name", JsVal.str "A"), ("username", JsVal.str "B"),
        ("admin_level", JsVal.num 1)]) =
      ([("user_name", JsVal.str "A"), ("username", JsVal.str "B"),
        ("admin_level", JsVal.num 1)] : Obj JsVal).filter
        (fun p => jsStartsWith p.1 ("user" ++ "_")) :=
  ⟨by decide, c9_prefix_unprefix_restriction "user" _ (by decide)⟩

/-! ### `shallow` equality and the subscribe filter -/

theorem shallow_iff_lookup_eq {α : Type} [DecidableEq α] {a b : Obj α}
    (ha : NodupKeys a) (hb : NodupKeys b) :
    shallow a b = true ↔ ∀ k, lookup a k = lookup b k := by
  constructor
  · intro h k
    rw [shallow, Bool.or_eq_true] at h
    rcases h with h | h
    · rw [show a = b by simpa using h]
    · rw [Bool.and_eq_true] at h
      obtain ⟨hlen, hall⟩ := h
      have hlen' : (keys a).length = (keys b).length := by simpa using hlen
      have hall' : ∀ x ∈ keys a, (lookup b x).isSome = true ∧ lookup a x = lookup b x := by
        intro x hx
        have h2 := List.all_eq_true.mp hall x hx
        rw [Bool.and_eq_true] at h2
        exact ⟨h2.1, by simpa using h2.2⟩
      have hsub : ∀ x ∈ keys a, x ∈ keys b :=
        fun x hx => (lookup_isSome_iff b x).mp (hall' x hx).1
      have hfs : (keys a).toFinset = (keys b).toFinset := by
        apply Finset.eq_of_subset_of_card_le
        · intro x hx
          exact List.mem_toFinset.mpr (hsub x (List.mem_toFinset.mp hx))
        · rw [List.toFinset_card_of_nodup ha, List.toFinset_card_of_nodup hb]
          exact le_of_eq hlen'.symm
      by_cases hk : k ∈ keys a
      · exact (hall' k hk).2
      · have hkb : k ∉ keys b := by
          intro hkb
          apply hk
          exact List.mem_toFinset.mp (hfs ▸ List.mem_toFinset.mpr hkb)
        rw [lookup_eq_none hk, lookup_eq_none hkb]
  · intro h
    rw [shallow, Bool.or_eq_true]
    right
    rw [Bool.and_eq_true]
    constructor
    · have hmem : ∀ x, x ∈ keys a ↔ x ∈ keys b := by
        intro x
        rw [← lookup_isSome_iff, ← lookup_isSome_iff, h x]
      have hfs : (keys a).toFinset = (keys b).toFinset := by
        apply Finset.ext
        intro x
        simp only [List.mem_toFinset]
        exact hmem x
      have h2 : (keys a).length = (keys b).length := by
        rw [← List.toFinset_card_of_nodup ha, ← List.toFinset_card_of_nodup hb, hfs]
      simpa using h2
    · rw [List.all_eq_true]
      intro k hk
      rw [Bool.and_eq_true]
      constructor
      · rw [← h k]
        exact (lookup_isSome_iff a k).mpr hk
      · simp [h k]

/-! ### Claim C2: subscription filtering -/

/-- **C2**: for every listener registered through a facade's `subscribe` and
every parent notification `(newState, oldState)`: the listener is suppressed
exactly when the two unprefixed views agree on every key (shallow equality:
same keys with `===`-equal values), and otherwise it is invoked exactly once
with the new and old unprefixed views as its two arguments. -/
theorem c2_subscribe_filter {α β : Type} [DecidableEq α] (ns : Namespace α)
    (listener : Obj α → Obj α → β) (newState oldState : Obj α) :
    (namespacedListener ns listener newState oldState = none ↔
      ∀ k, lookup (getUnprefixedObject ns.name newState) k =
        lookup (getUnprefixedObject ns.name oldState) k) ∧
    (namespacedListener ns listener newState oldState = none ∨
      namespacedListener ns listener newState oldState =
        some (listener (getUnprefixedObject ns.name newState)
          (getUnprefixedObject ns.name oldState))) := by
  have hs := shallow_iff_lookup_eq
    (a := getUnprefixedObject ns.name newState)
    (b := getUnprefixedObject ns.name oldState)
    (nodupKeys_getUnprefixedObject _ _) (nodupKeys_getUnprefixedObject _ _)
  simp only [namespacedListener]
  by_cases h : shallow (getUnprefixedObject ns.name newState)
      (getUnprefixedObject ns.name oldState) = true
  · rw [if_pos h]
    exact ⟨⟨fun _ => hs.mp h, fun _ => rfl⟩, Or.inl rfl⟩
  · rw [if_neg h]
    refine ⟨⟨fun hsome => absurd hsome (by simp), fun heq => absurd (hs.mpr heq) h⟩,
      Or.inr rfl⟩

/-! ### Claims C1 and C6: facade writes -/

theorem mem_keys_getPrefixedObject {α : Type} {n : String} {o : Obj α} {k : String}
    (h : k ∈ keys (getPrefixedObject n o)) : jsStartsWith k (n ++ "_") = true := by
  rw [getPrefixedObject_eq_spread] at h
  rcases mem_keys_spread h with h2 | h2
  · simp [keys] at h2
  · rw [keys_map_entry] at h2
    obtain ⟨k0, _, rfl⟩ := List.mem_map.mp h2
    exact jsStartsWith_key n k0

/-- **C6**: a non-replace facade `setState` (replace falsy) leaves every
parent-state key outside this namespace's prefixed key space unchanged — in
particular every other namespace's `b_*` keys: the patch is prefixed and the
parent merge only touches the prefixed patch keys, which all start with the
namespace's own `name + "_"` token. -/
theorem c6_write_isolation {α : Type} (ns : Namespace α) (stateArg : SetStateArg α)
    (current : Obj α) (k : String) (h1 : NodupKeys current)
    (h2 : jsStartsWith k (ns.name ++ "_") = false) :
    lookup (namespacedSetState ns stateArg false current) k = lookup current k := by
  show lookup (spread (spread [] current)
    (facadeUpdateFn ns.name stateArg false current)) k = lookup current k
  have hfn : facadeUpdateFn ns.name stateArg false current =
      getPrefixedObject ns.name
        (resolveArg stateArg (getUnprefixedObject ns.name current)) := rfl
  rw [hfn]
  have hnot : k ∉ keys (getPrefixedObject ns.name
      (resolveArg stateArg (getUnprefixedObject ns.name current))) := by
    intro hk
    have h3 := mem_keys_getPrefixedObject hk
    rw [h3] at h2
    exact Bool.noConfusion h2
  rw [lookup_spread_not_mem _ hnot, spread_nil_left h1]

/-- Witness for C6: writing `{x: 9}` through namespace `a`'s facade leaves
the other namespace's key `b_z` unchanged. -/
theorem c6_write_isolation_witness :
    NodupKeys ([("a_x", JsVal.num 1), ("b_z", JsVal.num 2)] : Obj JsVal) ∧
    jsStartsWith "b_z" (aNs.name ++ "_") = false ∧
    lookup (namespacedSetState aNs (.value [("x", JsVal.num 9)]) false
        [("a_x", JsVal.num 1), ("b_z", JsVal.num 2)]) "b_z" =
      lookup [("a_x", JsVal.num 1), ("b_z", JsVal.num 2)] "b_z" :=
  ⟨by decide, by decide, c6_write_isolation aNs _ _ _ (by decide) (by decide)⟩

/-- **C1** (evaluation of the code at the claim's failing input): with
namespace `a`'s unprefixed state `{x:1, y:2}` inside parent state
`{a_x:1, a_y:2, b_z:3}`, the facade call `setState({x: 9}, true)` yields
parent state `{a_x:9, a_y:2, b_z:3}` — the stale key `a_y` is NOT removed,
because `src/utils.tsx` passes no `replace` argument to the parent's
`setState`, so the parent shallow-merges the carefully pruned object back
over the current state, undoing the pruning.  The claim (and the spec's
replace semantics) say the result should contain exactly `{a_x: 9}` for
namespace `a`'s keys. -/
theorem c1_replace_keeps_stale_key :
    namespacedSetState aNs (.value [("x", JsVal.num 9)]) true
        [("a_x", JsVal.num 1), ("a_y", JsVal.num 2), ("b_z", JsVal.num 3)] =
      [("a_x", JsVal.num 9), ("a_y", JsVal.num 2), ("b_z", JsVal.num 3)] ∧
    lookup (namespacedSetState aNs (.value [("x", JsVal.num 9)]) true
        [("a_x", JsVal.num 1), ("a_y", JsVal.num 2), ("b_z", JsVal.num 3)]) "a_y" =
      some (JsVal.num 2) :=
  ⟨by decide, by decide⟩

/-! ### Claims C3 and C10: the combinator's merge order -/

theorem lookup_spreadNamespaces {α : Type} (nss : List (Namespace α))
    (cb : Namespace α → Obj α) (h : ∀ ns ∈ nss, NodupKeys (cb ns)) (k : String) :
    lookup (spreadNamespaces nss cb) k = firstLookup ((nss.map cb).reverse) k := by
  induction nss using List.reverseRecOn with
  | nil => rfl
  | append_singleton nss ns ih =>
      have hstep : spreadNamespaces (nss ++ [ns]) cb =
          spread (spreadNamespaces nss cb) (cb ns) := by
        unfold spreadNamespaces
        rw [List.foldl_append]
        rfl
      rw [hstep, lookup_spread, lookup_reverse (h ns (by simp)),
        List.map_append, List.reverse_append,
        ih (fun x hx => h x (by simp [hx]))]
      rfl

/-- **C3**: the combined creator's state resolves every key by this
priority: the root creator's output wins over every namespace, and among the
namespace outputs (each namespace's creator output prefixed with its own
name) the LAST descriptor in list order wins — i.e. the state is the
left-to-right shallow merge of the prefixed namespace outputs with the root
output merged last on top, so duplicate namespace names resolve
last-write-wins and a root key overrides a same-named merged key. -/
theorem c3_merge_order {α : Type} (nss : List (Namespace α)) (creator : Creator α)
    (set : SetStateArg α → Bool → Obj α) (get : Obj α) (api : StoreApiModel α)
    (h : NodupKeys (creator set get api)) (k : String) :
    lookup (namespaced nss (some creator) set get api) k =
      altO (lookup (creator set get api) k)
        (firstLookup ((nss.map (transformCallback set get api)).reverse) k) := by
  show lookup (spread (spreadNamespaces nss (transformCallback set get api))
    (creator set get api)) k = _
  rw [lookup_spread, lookup_reverse h,
    lookup_spreadNamespaces nss (transformCallback set get api)
      (fun x _ => nodupKeys_getPrefixedObject x.name _) k]

/-- Witness for C3 at `[userNs, adminNs]` with a root creator whose
`user_name` key collides with (and overrides) the `user` namespace's
prefixed key. -/
theorem c3_merge_order_witness :
    NodupKeys (rootFix stubSet [] stubApi) ∧
    lookup (namespaced [userNs, adminNs] (some rootFix) stubSet [] stubApi) "user_name" =
      altO (lookup (rootFix stubSet [] stubApi) "user_name")
        (firstLookup (([userNs, adminNs].map (transformCallback stubSet [] stubApi)).reverse)
          "user_name") :=
  ⟨by decide,
    c3_merge_order [userNs, adminNs] rootFix stubSet [] stubApi (by decide) "user_name"⟩

/-- **C10**: when the root creator is omitted, the combined creator returns
exactly the left-to-right merge of the prefixed namespace creator outputs
(total — it never fails), and resolves every key from those outputs alone:
no key is contributed by the absent root creator. -/
theorem c10_omitted_root {α : Type} (nss : List (Namespace α))
    (set : SetStateArg α → Bool → Obj α) (get : Obj α) (api : StoreApiModel α) :
    namespaced nss none set get api = spreadTransformedNamespaces nss set get api ∧
    ∀ k, lookup (namespaced nss none set get api) k =
      firstLookup ((nss.map (transformCallback set get api)).reverse) k := by
  constructor
  · rfl
  · intro k
    show lookup (spreadNamespaces nss (transformCallback set get api)) k = _
    exact lookup_spreadNamespaces nss (transformCallback set get api)
      (fun x _ => nodupKeys_getPrefixedObject x.name _) k

/-! ### Claim C7: `fromNamespace` -/

/-- **C7** (counterexample): `fromNamespace` in `src/utils.tsx` is a
two-argument transform taking the namespace descriptor FIRST and one state
second — not `fromNamespace(state, ...descriptors)`.  No single call on the
state `{name:"Alice", age:25}` with either of the two descriptors produces
the claimed nested object `{user_admin_name:"Alice", user_admin_age:25}`:
one application prefixes exactly one name. -/
theorem c7_counterexample :
    fromNamespace adminNs aliceState ≠
      [("user_admin_name", JsVal.str "Alice"), ("user_admin_age", JsVal.num 25)] ∧
    fromNamespace userNs aliceState ≠
      [("user_admin_name", JsVal.str "Alice"), ("user_admin_age", JsVal.num 25)] ∧
    lookup (fromNamespace userNs aliceState) "user_admin_name" = none ∧
    lookup (fromNamespace adminNs aliceState) "user_admin_name" = none :=
  ⟨by decide, by decide, by decide, by decide⟩

/-- **C7** (amended): `fromNamespace` is a standalone pure two-argument
transform (descriptor first, state second); nested prefixing is achieved by
composing calls, with the first-applied descriptor's name innermost:
`fromNamespace(userNs, fromNamespace(adminNs, {name:"Alice", age:25}))`
produces `{user_admin_name:"Alice", user_admin_age:25}`. -/
theorem c7_nested_by_composition :
    fromNamespace userNs (fromNamespace adminNs aliceState) =
      [("user_admin_name", JsVal.str "Alice"), ("user_admin_age", JsVal.num 25)] := by
  decide

/-! ### Claim C8: the hook-accessor factory -/

theorem keys_arrayObj {β : Type} (l : List β) :
    keys (arrayObj l) = (List.range l.length).map (fun i => toString i) := by
  unfold arrayObj keys
  rw [List.map_map]
  have h1 : (Prod.fst ∘ fun p : Nat × β => (toString p.1, p.2)) =
      (fun i : Nat => toString i) ∘ Prod.fst := rfl
  rw [h1, ← List.map_map]
  congr 1
  exact List.map_fst_zip _ _ (by simp)

/-- **C8** (counterexample): with the two descriptors `userNs` and `adminNs`
the factory returns a JS array whose own keys are exactly the index strings
`"0"` and `"1"`; it is NOT addressable by namespace name — looking up
`"user"` or `"admin"` finds nothing, while the index keys hold the
accessors. -/
theorem c8_counterexample :
    withFactoriesGetNamespaceHook stubApi [userNs, adminNs] = .many hookArrayFix ∧
    keys hookArrayFix = ["0", "1"] ∧
    lookup hookArrayFix "user" = none ∧
    lookup hookArrayFix "admin" = none ∧
    lookup hookArrayFix "0" = some (getNamespaceHook stubApi userNs) ∧
    lookup hookArrayFix "1" = some (getNamespaceHook stubApi adminNs) :=
  ⟨rfl, rfl, rfl, rfl, rfl, rfl⟩

/-- **C8** (amended): with multiple descriptors the factory returns one
accessor per descriptor as a JS array, in descriptor order, addressable
positionally by decimal index keys — and only by those index keys, not by
namespace name: the collection's keys are exactly the index strings. -/
theorem c8_array_positional {α : Type} (api : StoreApiModel α)
    (ns1 ns2 : Namespace α) :
    withFactoriesGetNamespaceHook api [ns1, ns2] =
      .many [("0", getNamespaceHook api ns1), ("1", getNamespaceHook api ns2)] ∧
    ∀ nss : List (Namespace α),
      keys (arrayObj (nss.map (getNamespaceHook api))) =
        (List.range nss.length).map (fun i => toString i) := by
  constructor
  · show HookResult.many
      (arrayObj [getNamespaceHook api ns1, getNamespaceHook api ns2]) = _
    show HookResult.many [(toString 0, getNamespaceHook api ns1),
      (toString 1, getNamespaceHook api ns2)] = _
    rw [show toString (0 : Nat) = "0" from rfl, show toString (1 : Nat) = "1" from rfl]
  · intro nss
    rw [keys_arrayObj]
    simp

end ZustandDiv
